import Mathlib

/-!
# Verification of the BPM-Detector tempo estimation engine

Shallow embedding of the tempo engine of the BPM-Detector repository:

* `bpm_core.py` — the batch analyzer `BPMAnalyzer` (frame energy / spectral
  flux extraction, adaptive-threshold beat detection, interval-to-BPM
  candidate generation, IQR outlier rejection, moving-average smoothing);
* `analyzer.py` — the streaming consensus logic embedded in the microphone
  monitor loop (rolling buffer bound, consensus median, history smoothing).

Python floats are idealized as exact real numbers; the float NaN produced by
`0.0/0.0` (and propagated through numpy reductions and comparisons) is
modelled explicitly by the type `FV`.  Quantities that the source computes
with exact results on its relevant paths (beat timestamps, BPM candidates,
the statistical aggregation) are modelled over `ℚ` so that they evaluate on
concrete inputs.  A raised Python exception is modelled as `none`.
-/

namespace BPMDetector

/-! ## numpy statistical helpers over ℚ

`np.percentile` (default linear interpolation), `np.median` and `np.mean`,
as used by `bpm_core.py`.  `npSort` models numpy's ascending sort. -/

/-- Ascending sort, modelling `np.sort` / the sorting step inside
`np.percentile` and `np.median`. -/
def npSort (values : List ℚ) : List ℚ :=
  List.insertionSort (· ≤ ·) values

/-- `np.percentile(values, p)` with the default linear interpolation:
the virtual index is `p/100 · (n−1)`; the result interpolates linearly
between the two neighbouring order statistics. -/
def npPercentile (values : List ℚ) (p : ℚ) : ℚ :=
  let s := npSort values
  let idx : ℚ := p * ((s.length : ℚ) - 1) / 100
  let lo : ℕ := (⌊idx⌋).toNat
  let hi : ℕ := (⌈idx⌉).toNat
  s.getD lo 0 + (idx - ⌊idx⌋) * (s.getD hi 0 - s.getD lo 0)

/-- `np.median`: middle order statistic for odd length, the mean of the two
middle order statistics for even length.  (The source only applies it to
non-empty lists.) -/
def npMedian (values : List ℚ) : ℚ :=
  let s := npSort values
  let n := s.length
  if n % 2 = 1 then s.getD (n / 2) 0
  else (s.getD (n / 2 - 1) 0 + s.getD (n / 2) 0) / 2

/-- `np.mean` (the source only applies it to non-empty lists). -/
def npMean (values : List ℚ) : ℚ :=
  values.sum / (values.length : ℚ)

/-! ## `BPMAnalyzer` configuration (`bpm_core.py`, `__init__`) -/

/-- The attributes set by `BPMAnalyzer.__init__`. -/
structure BPMAnalyzer where
  frame_size : ℕ
  hop_size : ℕ
  beat_threshold_multiplier : ℚ
  bpm_smoothing_window : ℕ
  spectral_flux_threshold : ℚ
  deriving DecidableEq, Repr

/-- `BPMAnalyzer.__init__(frame_size, hop_size)`.  The constructor performs
no validation whatsoever: it merely stores the two sizes and the fixed
tuning constants (`1.3`, `3`, `0.15`). -/
def BPMAnalyzer.init (frame_size : ℕ) (hop_size : ℕ) : BPMAnalyzer :=
  { frame_size := frame_size
    hop_size := hop_size
    beat_threshold_multiplier := 13 / 10
    bpm_smoothing_window := 3
    spectral_flux_threshold := 3 / 20 }

/-- `BPMAnalyzer()` with the default arguments `frame_size=2048`,
`hop_size=512`. -/
def defaultAnalyzer : BPMAnalyzer := BPMAnalyzer.init 2048 512

/-! ## `BPMAnalyzer._moving_average` -/

/-- `_moving_average(values, window_size)`: the input unchanged when it is
shorter than the window, otherwise the list of all trailing-window means
(the window slides by 1). -/
def moving_average (values : List ℚ) (window_size : ℕ) : List ℚ :=
  if values.length < window_size then values
  else
    (List.range (values.length - window_size + 1)).map
      (fun i => npMean ((values.drop i).take window_size))

/-! ## `BPMAnalyzer._filter_outliers_iqr` -/

/-- Lower IQR fence `Q1 − 1.5·IQR` over a candidate list. -/
def iqrLower (values : List ℚ) : ℚ :=
  npPercentile values 25 - 3 / 2 * (npPercentile values 75 - npPercentile values 25)

/-- Upper IQR fence `Q3 + 1.5·IQR` over a candidate list. -/
def iqrUpper (values : List ℚ) : ℚ :=
  npPercentile values 75 + 3 / 2 * (npPercentile values 75 - npPercentile values 25)

/-- `_filter_outliers_iqr(values)`: keeps the values `v` with
`lower_bound ≤ v ≤ upper_bound` where the bounds are the IQR fences. -/
def filter_outliers_iqr (values : List ℚ) : List ℚ :=
  if values = [] then []
  else values.filter (fun v => decide (iqrLower values ≤ v ∧ v ≤ iqrUpper values))

/-! ## `BPMAnalyzer._calculate_bpm_candidates` -/

/-- The consecutive differences `beats[i] - beats[i-1]`. -/
def beatIntervals (beats : List ℚ) : List ℚ :=
  (beats.zip beats.tail).map (fun p => p.2 - p.1)

/-- `_calculate_bpm_candidates(beats, sample_rate)` (the `sample_rate`
argument is unused by the source).  Fewer than 2 beats give `[]`; otherwise
each positive inter-beat interval contributes `60/interval · ratio` for the
ratios `0.5, 1.0, 2.0`, a candidate being appended iff `40 ≤ c ≤ 220`. -/
def calculate_bpm_candidates (beats : List ℚ) (_sample_rate : ℚ) : List ℚ :=
  if beats.length < 2 then []
  else
    (beatIntervals beats).flatMap (fun interval =>
      if 0 < interval then
        ([1/2, 1, 2] : List ℚ).filterMap (fun ratio =>
          let candidate := 60 / interval * ratio
          if 40 ≤ candidate ∧ candidate ≤ 220 then some candidate else none)
      else [])

/-! ## The refractory merge at the end of `_detect_beats_improved`

```
refined_beats = []
min_beat_interval = 0.05
for beat in beats:
    if not refined_beats or beat - refined_beats[-1] > min_beat_interval:
        refined_beats.append(beat)
```
The loop keeps a beat iff the accepted list is empty or the beat exceeds the
previously accepted beat by strictly more than `0.05` s, written below as a
structural recursion carrying the previously accepted beat. -/

/-- The refractory loop after the first beat has been accepted: `last` is the
previously accepted beat. -/
def refineBeatsAux (last : ℚ) : List ℚ → List ℚ
  | [] => []
  | b :: bs => if 1/20 < b - last then b :: refineBeatsAux b bs else refineBeatsAux last bs

/-- The refractory merge: the first beat is always accepted (`refined_beats`
is empty), every later beat only when it exceeds the previously accepted
beat by more than `min_beat_interval = 0.05` s. -/
def refineBeats : List ℚ → List ℚ
  | [] => []
  | b :: bs => b :: refineBeatsAux b bs

/-! ## The aggregation tail of `BPMAnalyzer.analyze_audio_data`

```
bpm_candidates = self._calculate_bpm_candidates(beats, sample_rate)
filtered_bpm = self._filter_outliers_iqr(bpm_candidates)
if not filtered_bpm:
    return np.median(bpm_candidates) if bpm_candidates else 0
if len(filtered_bpm) >= self.bpm_smoothing_window:
    smoothed_bpm = self._moving_average(filtered_bpm, self.bpm_smoothing_window)
    return np.mean(smoothed_bpm)
return np.mean(filtered_bpm)
```
-/

/-- The robust aggregation step of `analyze_audio_data`, from the candidate
list to the returned BPM value. -/
def aggregateCandidates (a : BPMAnalyzer) (bpm_candidates : List ℚ) : ℚ :=
  let filtered_bpm := filter_outliers_iqr bpm_candidates
  if filtered_bpm = [] then
    if bpm_candidates = [] then 0 else npMedian bpm_candidates
  else if a.bpm_smoothing_window ≤ filtered_bpm.length then
    npMean (moving_average filtered_bpm a.bpm_smoothing_window)
  else npMean filtered_bpm

/-! ## Float values with NaN

`_detect_beats_improved` divides the buffer by `np.max(np.abs(buffer))`;
on an all-zero buffer that is `0.0/0.0`, i.e. NaN, which then propagates
through every numpy reduction and makes every comparison `False`.  `FV`
models an IEEE double as either an exact real or NaN. -/

/-- A float value: NaN or an exact real. -/
inductive FV where
  | nan : FV
  | val (x : ℝ) : FV

noncomputable section

namespace FV

/-- Float addition (NaN-propagating). -/
def add : FV → FV → FV
  | val a, val b => val (a + b)
  | _, _ => nan

/-- Float subtraction (NaN-propagating). -/
def sub : FV → FV → FV
  | val a, val b => val (a - b)
  | _, _ => nan

/-- Float multiplication (NaN-propagating). -/
def mul : FV → FV → FV
  | val a, val b => val (a * b)
  | _, _ => nan

/-- Float division.  The `b = 0` case only arises in the source as
`0.0/0.0` (NaN); the divisors of the other uses are nonzero by a guard. -/
def div : FV → FV → FV
  | val a, val b => if b = 0 then nan else val (a / b)
  | _, _ => nan

/-- `np.sqrt`: NaN on NaN and on negative arguments. -/
def sqrt : FV → FV
  | val a => if a < 0 then nan else val (Real.sqrt a)
  | nan => nan

/-- `np.maximum` (NaN-propagating). -/
def npMaximum : FV → FV → FV
  | val a, val b => val (max a b)
  | _, _ => nan

/-- Float `<`: `false` whenever either operand is NaN. -/
def flt : FV → FV → Bool
  | val a, val b => decide (a < b)
  | _, _ => false

/-- `np.sum` (`0.0` on the empty array, NaN-propagating). -/
def sum (l : List FV) : FV := l.foldr add (val 0)

/-- `np.mean` = `np.sum / len`; on the empty array this is `0.0/0`, NaN. -/
def mean (l : List FV) : FV := div (sum l) (val (l.length : ℝ))

/-- `np.max` over an array (NaN-propagating).  The source only applies it
to non-empty arrays; the `[]` case is never reached. -/
def listMax : List FV → FV
  | [] => nan
  | x :: xs => xs.foldl npMaximum x

end FV

/-! ## `BPMAnalyzer._detect_beats_improved` and `_calculate_spectral_flux` -/

/-- `audio_data / np.max(np.abs(audio_data))`.  `np.max` of an empty array
raises `ValueError` (modelled as `none`); if the maximum is `0` every sample
is `0` and each quotient is `0.0/0.0 = NaN`. -/
def normalizeAudio (audio : List ℝ) : Option (List FV) :=
  match audio with
  | [] => none
  | y :: ys =>
    let m := ys.foldl (fun acc v => max acc |v|) |y|
    if m = 0 then some (audio.map (fun _ => FV.nan))
    else some (audio.map (fun v => FV.val (v / m)))

/-- The number of iterations of `range(0, len(audio) - frame_size, hop_size)`
(the frame loops of the energy and flux computations). -/
def numFrames (a : BPMAnalyzer) (len : ℕ) : ℕ :=
  (len - a.frame_size + a.hop_size - 1) / a.hop_size

/-- The start indices produced by `range(0, len(audio) - frame_size, hop_size)`. -/
def frameStarts (a : BPMAnalyzer) (len : ℕ) : List ℕ :=
  (List.range (numFrames a len)).map (· * a.hop_size)

/-- The slice `audio[start : start + size]`. -/
def frameAt (x : List FV) (start size : ℕ) : List FV := (x.drop start).take size

/-- The per-frame energy envelope `sqrt(mean(frame**2))`. -/
def energyList (a : BPMAnalyzer) (x : List FV) : List FV :=
  (frameStarts a x.length).map (fun s =>
    FV.sqrt (FV.mean ((frameAt x s a.frame_size).map (fun v => FV.mul v v))))

/-- One point of `np.hanning(N)`: `0.5 − 0.5·cos(2πn/(N−1))`. -/
def hanning (N : ℕ) (n : ℕ) : ℝ :=
  1/2 - 1/2 * Real.cos (2 * Real.pi * (n : ℝ) / ((N : ℝ) - 1))

/-- The magnitude spectrum `np.abs(np.fft.rfft(frame))`:
`|Σₙ frame[n]·e^(−2πi·k·n/N)|` for `k = 0, …, N/2`. -/
def rfftMagnitude (frame : List FV) : List FV :=
  let N := frame.length
  (List.range (N / 2 + 1)).map (fun k =>
    let re := FV.sum (frame.zipWith
      (fun v n => FV.mul v (FV.val (Real.cos (2 * Real.pi * (k : ℝ) * (n : ℝ) / (N : ℝ)))))
      (List.range N))
    let im := FV.sum (frame.zipWith
      (fun v n => FV.mul v (FV.val (Real.sin (2 * Real.pi * (k : ℝ) * (n : ℝ) / (N : ℝ)))))
      (List.range N))
    FV.sqrt (FV.add (FV.mul re re) (FV.mul im im)))

/-- `_calculate_spectral_flux(audio_data, sample_rate)`: Hann-windowed
magnitude spectra per frame, sum of squared positive increases between
consecutive frames (the first frame yields no value), then normalization by
the maximum when it is positive. -/
def calculate_spectral_flux (a : BPMAnalyzer) (x : List FV) : List FV :=
  let mags := (frameStarts a x.length).map (fun s =>
    rfftMagnitude ((frameAt x s a.frame_size).zipWith
      (fun v n => FV.mul v (FV.val (hanning a.frame_size n)))
      (List.range a.frame_size)))
  let flux := (mags.zip mags.tail).map (fun p =>
    FV.sum (p.1.zipWith
      (fun prev cur =>
        let d := FV.npMaximum (FV.val 0) (FV.sub cur prev)
        FV.mul d d)
      p.2))
  match flux with
  | [] => []
  | f :: fs =>
    let maxFlux := FV.listMax (f :: fs)
    if FV.flt (FV.val 0) maxFlux then (f :: fs).map (fun v => FV.div v maxFlux)
    else f :: fs

/-- `np.std` = `sqrt(mean((x − mean(x))²))`. -/
def npStdFV (l : List FV) : FV :=
  FV.sqrt (FV.mean (l.map (fun v =>
    let d := FV.sub v (FV.mean l)
    FV.mul d d)))

/-- The adaptive threshold list: for each index `i`, local mean plus
`beat_threshold_multiplier` times local standard deviation over the slice
`combined[max(0, i−30) : min(len, i+1)]`. -/
def dynamicThreshold (a : BPMAnalyzer) (combined : List FV) : List FV :=
  (List.range combined.length).map (fun i =>
    let start := i - 30
    let stop := min combined.length (i + 1)
    let window := (combined.drop start).take (stop - start)
    let local_mean := FV.mean window
    let local_std := if start < stop then npStdFV window else FV.val 0
    FV.add local_mean (FV.mul (FV.val ((a.beat_threshold_multiplier : ℚ) : ℝ)) local_std))

/-- The combined onset curve
`0.7 * np.array(energy[:min_length]) + 0.3 * np.array(spectral_flux[:min_length])`. -/
def combinedOnset (a : BPMAnalyzer) (x : List FV) : List FV :=
  let energy := energyList a x
  let flux := calculate_spectral_flux a x
  let min_length := min energy.length flux.length
  (energy.take min_length).zipWith
    (fun e f => FV.add (FV.mul (FV.val (7/10)) e) (FV.mul (FV.val (3/10)) f))
    (flux.take min_length)

/-- The peak-picking loop `for i in range(1, len(combined_onset) - 1)`:
indices whose onset value strictly exceeds both neighbours and the adaptive
threshold (out-of-range accesses cannot occur; the `getD` default is
irrelevant). -/
def peakIndices (combined threshold : List FV) : List ℕ :=
  ((List.range (combined.length - 1)).drop 1).filter (fun i =>
    FV.flt (combined.getD (i - 1) FV.nan) (combined.getD i FV.nan) &&
    FV.flt (combined.getD (i + 1) FV.nan) (combined.getD i FV.nan) &&
    FV.flt (threshold.getD i FV.nan) (combined.getD i FV.nan))

/-- `_detect_beats_improved(audio_data, sample_rate)`: normalize, combine
energy and flux as `0.7·energy + 0.3·flux` over their common length, pick
the interior indices that are strict local maxima above the adaptive
threshold, convert to timestamps `i·hop_size/sample_rate`, and apply the
refractory merge.  `none` models the `ValueError` on an empty buffer and
the `ZeroDivisionError` when a timestamp is computed with `sample_rate = 0`. -/
def detect_beats_improved (a : BPMAnalyzer) (audio : List ℝ) (sample_rate : ℚ) :
    Option (List ℚ) :=
  match normalizeAudio audio with
  | none => none
  | some x =>
    let combined := combinedOnset a x
    let threshold := dynamicThreshold a combined
    let peaks := peakIndices combined threshold
    if sample_rate = 0 ∧ peaks ≠ [] then none
    else some (refineBeats (peaks.map (fun i => ((i : ℚ) * (a.hop_size : ℚ)) / sample_rate)))

/-- `BPMAnalyzer.analyze_audio_data(audio_data, sample_rate)`: detect beats,
return `0` when there are none, otherwise aggregate the BPM candidates. -/
def analyze_audio_data (a : BPMAnalyzer) (audio : List ℝ) (sample_rate : ℚ) :
    Option ℚ :=
  match detect_beats_improved a audio sample_rate with
  | none => none
  | some beats =>
    if beats = [] then some 0
    else some (aggregateCandidates a (calculate_bpm_candidates beats sample_rate))

end

/-! ## The streaming consensus state (`analyzer.py`, `_mic_monitor_thread`)

The mutable attributes touched by one stable-phase update cycle are
`mic_bpm_history` and `mic_bpm` (`mic_bpm` is initialized to `0` in
`__init__`, so the `hasattr` test of the source is always true). -/

/-- The streaming state mutated by a stable-phase update cycle. -/
structure MicState where
  history : List ℚ
  bpm : ℚ
  deriving DecidableEq, Repr

/-- The 3-point median filter of the smoothing step: endpoints pass through
unchanged, each interior point is replaced by `np.median(history[i-1:i+2])`. -/
def medianFilter3 (history : List ℚ) : List ℚ :=
  (List.range history.length).map (fun i =>
    if i = 0 ∨ i = history.length - 1 then history.getD i 0
    else npMedian ((history.drop (i - 1)).take 3))

/-- The exponential moving average fold with `alpha = 0.3`, seeded by the
first element: `ema = alpha·bpm + (1 − alpha)·ema`. -/
def emaFold : List ℚ → ℚ
  | [] => 0
  | x :: xs => xs.foldl (fun ema bpm => 3/10 * bpm + (1 - 3/10) * ema) x

/-- One stable-phase update cycle over the three per-segment analysis
results: keep the positive ones; if none survive, leave the state alone
(the source re-assigns `mic_bpm = 0` only when it already is `0`);
otherwise append their median to the history, bound the history to the
most recent 20 entries, and recompute `mic_bpm` (median filter + EMA when
the history has at least 3 entries, plain median otherwise). -/
def micUpdate (st : MicState) (segmentResults : List ℚ) : MicState :=
  let segment_bpms := segmentResults.filter (fun b => decide (0 < b))
  if segment_bpms = [] then
    { history := st.history, bpm := if st.bpm = 0 then 0 else st.bpm }
  else
    let current_bpm := npMedian segment_bpms
    let appended := st.history ++ [current_bpm]
    let history := if 20 < appended.length then appended.drop (appended.length - 20)
      else appended
    let bpm := if 3 ≤ history.length then emaFold (medianFilter3 history)
      else npMedian history
    { history := history, bpm := bpm }

/-! ## The rolling-buffer bound of `audio_callback` (`analyzer.py`) -/

/-- Python's `b[-c:]`: the last `c` elements — except that `b[-0:]` is
`b[0:]`, the whole list. -/
def pyLastSlice (b : List ℚ) (c : ℕ) : List ℚ :=
  if c = 0 then b else b.drop (b.length - c)

/-- The buffer maintenance of `audio_callback`: extend the rolling buffer by
the arriving chunk, then cut it back to `mic_sample_rate * 10` samples when
that cap is exceeded. -/
def audio_callback_buffer (buf chunk : List ℚ) (mic_sample_rate : ℕ) : List ℚ :=
  let b := buf ++ chunk
  let max_buffer_size := mic_sample_rate * 10
  if max_buffer_size < b.length then pyLastSlice b max_buffer_size else b

/-! ## Spec-side definitions

Definitions transcribed from the wording of the specification claims, to be
compared with the source-derived definitions above. -/

/-- Modelled from the claim wording (C2): with fewer than 2 beats no
candidates; otherwise each consecutive pair with positive interval `dt`
yields the candidates `(60/dt)·r` for `r ∈ {0.5, 1.0, 2.0}`, a candidate
being retained iff it lies within `[40, 220]`. -/
def candidatesSpec (beats : List ℚ) : List ℚ :=
  if beats.length < 2 then []
  else
    (beatIntervals beats).flatMap (fun dt =>
      if 0 < dt then
        (([1/2, 1, 2] : List ℚ).map (fun r => 60 / dt * r)).filter
          (fun c => decide (40 ≤ c ∧ c ≤ 220))
      else [])

/-- Modelled from the claim wording (C1): keep the candidates within
`[Q1 − 1.5·IQR, Q3 + 1.5·IQR]`; with at least 3 survivors return the mean
of the trailing 3-wide moving-average window means, with fewer the mean of
the survivors, and when nothing survives the median of the unfiltered
candidates. -/
def aggregateSpec (cands : List ℚ) : ℚ :=
  let kept := cands.filter (fun v => decide (iqrLower cands ≤ v ∧ v ≤ iqrUpper cands))
  if kept = [] then npMedian cands
  else if 3 ≤ kept.length then npMean (moving_average kept 3)
  else npMean kept

/-- Modelled from the claim wording (C3): drop exactly the candidate beats
whose delta from the previously accepted beat is strictly below 50 ms
(i.e. keep a beat whenever its delta is at least `1/20` s). -/
def refineClaimLtAux (last : ℚ) : List ℚ → List ℚ
  | [] => []
  | b :: bs => if 1/20 ≤ b - last then b :: refineClaimLtAux b bs else refineClaimLtAux last bs

/-- Entry point of the claim-side refractory merge of C3. -/
def refineClaimLt : List ℚ → List ℚ
  | [] => []
  | b :: bs => b :: refineClaimLtAux b bs

/-! ## General helper lemmas -/

theorem filterMap_ite_eq_filter_map {α β : Type} (g : α → β) (P : β → Prop)
    [DecidablePred P] (l : List α) :
    (l.filterMap fun r => if P (g r) then some (g r) else none)
      = (l.map g).filter (fun c => decide (P c)) := by
  induction l with
  | nil => rfl
  | cons a t ih =>
    by_cases h : P (g a) <;>
      simp [List.filterMap_cons, List.filter_cons, h, ih]

theorem refineBeatsAux_chain (bs : List ℚ) :
    ∀ last : ℚ, List.Chain (fun x y => x + 1/20 < y) last (refineBeatsAux last bs) := by
  induction bs with
  | nil => intro last; exact List.Chain.nil
  | cons b t ih =>
    intro last
    unfold refineBeatsAux
    split
    · exact List.Chain.cons (by linarith) (ih b)
    · exact ih last

theorem refineBeatsAux_sublist (bs : List ℚ) :
    ∀ last : ℚ, (refineBeatsAux last bs).Sublist bs := by
  induction bs with
  | nil => intro last; simp [refineBeatsAux]
  | cons b t ih =>
    intro last
    unfold refineBeatsAux
    split
    · exact (ih b).cons₂ b
    · exact (ih last).cons b

/-! ## Claim C2: the tempo candidate generator -/

/-- **C2.** With fewer than 2 beats the candidate generator returns `[]`;
in general it emits, for each consecutive pair with positive interval, the
candidates `(60/interval)·r` for `r ∈ {0.5, 1.0, 2.0}` retained iff within
`[40, 220]` (the spec-side transcription `candidatesSpec`); and for a 0.5 s
interval the candidates are exactly `[60, 120]` — `240` is rejected. -/
theorem calculate_bpm_candidates_correct :
    (∀ (beats : List ℚ) (sr : ℚ), beats.length < 2 → calculate_bpm_candidates beats sr = [])
    ∧ (∀ (beats : List ℚ) (sr : ℚ), calculate_bpm_candidates beats sr = candidatesSpec beats)
    ∧ calculate_bpm_candidates [0, 1/2] 44100 = [60, 120]
    ∧ (240 : ℚ) ∉ calculate_bpm_candidates [0, 1/2] 44100 := by
  have hhalf : calculate_bpm_candidates [0, 1/2] 44100 = [60, 120] := by
    norm_num [calculate_bpm_candidates, beatIntervals, List.filterMap_cons]
  refine ⟨?_, ?_, hhalf, by rw [hhalf]; norm_num⟩
  · intro beats sr h
    simp [calculate_bpm_candidates, h]
  · intro beats sr
    unfold calculate_bpm_candidates candidatesSpec
    have hfun :
        (fun interval : ℚ =>
          if 0 < interval then
            ([1/2, 1, 2] : List ℚ).filterMap (fun ratio =>
              let candidate := 60 / interval * ratio
              if 40 ≤ candidate ∧ candidate ≤ 220 then some candidate else none)
          else [])
        = (fun dt : ℚ =>
          if 0 < dt then
            (([1/2, 1, 2] : List ℚ).map (fun r => 60 / dt * r)).filter
              (fun c => decide (40 ≤ c ∧ c ≤ 220))
          else []) := by
      funext dt
      by_cases h : 0 < dt
      · rw [if_pos h, if_pos h]
        exact filterMap_ite_eq_filter_map (fun r => 60 / dt * r)
          (fun c => 40 ≤ c ∧ c ≤ 220) _
      · rw [if_neg h, if_neg h]
    rw [hfun]

/-- **C2 witness**: a single beat yields no candidates. -/
theorem calculate_bpm_candidates_correct_witness :
    calculate_bpm_candidates [(5 : ℚ)] 44100 = [] :=
  calculate_bpm_candidates_correct.1 [(5 : ℚ)] 44100 (by decide)

/-! ## Claim C3: the refractory merge -/

/-- **C3 counterexample.** The claim says the merge drops exactly the beats
whose delta from the previously accepted beat is *strictly below* 50 ms
(`refineClaimLt`).  At a delta of exactly 50 ms (= 1/20 s) the source keeps
only the first beat, while the claim-side merge keeps both. -/
theorem refineBeats_drops_at_exactly_50ms :
    refineBeats [0, 1/20] = [0] ∧ refineClaimLt [0, 1/20] = [0, 1/20] := by
  constructor
  · norm_num [refineBeats, refineBeatsAux]
  · norm_num [refineClaimLt, refineClaimLtAux]

/-- **C3 (amended).** The refractory merge keeps a subsequence of the
candidate beats in which each beat exceeds the previously accepted one by
*strictly more than* 50 ms (in particular the output is strictly increasing
with consecutive separations ≥ 50 ms), dropping exactly the candidates
whose delta from the previously accepted beat is ≤ 50 ms; two candidate
peaks 20 ms apart collapse to a single beat. -/
theorem refineBeats_refractory :
    (∀ beats : List ℚ,
      List.Chain' (fun x y => x + 1/20 < y) (refineBeats beats)
      ∧ (refineBeats beats).Sublist beats)
    ∧ refineBeats [0, 1/50] = [0] := by
  refine ⟨?_, by norm_num [refineBeats, refineBeatsAux]⟩
  intro beats
  cases beats with
  | nil => exact ⟨List.chain'_nil, List.Sublist.refl _⟩
  | cons b bs =>
    refine ⟨?_, (refineBeatsAux_sublist bs b).cons₂ b⟩
    show List.Chain _ b (refineBeatsAux b bs)
    exact refineBeatsAux_chain bs b

/-! ## Claim C7: the rolling-buffer bound -/

/-- **C7.** After the buffer-maintenance step of `audio_callback` (with a
positive sample rate) the buffer holds at most `10 · mic_sample_rate`
samples, and its contents are exactly the most recent suffix of the
concatenated stream. -/
theorem audio_callback_buffer_bounded (buf chunk : List ℚ) (sr : ℕ) (hsr : 1 ≤ sr) :
    (audio_callback_buffer buf chunk sr).length ≤ sr * 10
    ∧ audio_callback_buffer buf chunk sr
        = (buf ++ chunk).drop ((buf ++ chunk).length - sr * 10)
    ∧ (audio_callback_buffer buf chunk sr).IsSuffix (buf ++ chunk) := by
  have hcap : sr * 10 ≠ 0 := by omega
  unfold audio_callback_buffer pyLastSlice
  by_cases h : sr * 10 < (buf ++ chunk).length
  · rw [if_pos h, if_neg hcap]
    refine ⟨?_, rfl, List.drop_suffix _ _⟩
    rw [List.length_drop]
    omega
  · rw [if_neg h]
    have hlen : (buf ++ chunk).length ≤ sr * 10 := by omega
    have hzero : (buf ++ chunk).length - sr * 10 = 0 := by omega
    rw [hzero, List.drop_zero]
    exact ⟨hlen, rfl, List.suffix_refl _⟩

/-- **C7 witness**: rate 1 Hz, 8 old + 4 new samples → the last 10 are kept. -/
theorem audio_callback_buffer_bounded_witness :
    (audio_callback_buffer [1, 2, 3, 4, 5, 6, 7, 8] [9, 10, 11, 12] 1).length ≤ 1 * 10 :=
  (audio_callback_buffer_bounded [1, 2, 3, 4, 5, 6, 7, 8] [9, 10, 11, 12] 1 (by decide)).1

/-! ## Claim C8: constructor validation -/

/-- **C8 (the code at the claimed behaviour's failing input).**
`BPMAnalyzer.__init__` performs no validation at all: constructing the
analyzer with `hop_size = 4096 ≥ frame_size = 2048` succeeds and merely
stores the invalid configuration, contradicting the specified
`ConfigurationError`-at-construction behaviour. -/
theorem init_accepts_hop_ge_frame :
    BPMAnalyzer.init 2048 4096
      = { frame_size := 2048
          hop_size := 4096
          beat_threshold_multiplier := 13/10
          bpm_smoothing_window := 3
          spectral_flux_threshold := 3/20 } := rfl

/-! ## Claim C1: the robust aggregator -/

/-- **C1.** For every non-empty candidate list the IQR filter keeps exactly
the values within `[Q1 − 1.5·IQR, Q3 + 1.5·IQR]` and the aggregation tail of
`analyze_audio_data` agrees with the spec-side `aggregateSpec` (moving-average
mean for ≥ 3 survivors, plain mean otherwise, median of the unfiltered
candidates when nothing survives); on `[60, 61, 59, 60, 200]` the outlier
`200` is excluded and the result is exactly `60`. -/
theorem aggregator_correct :
    (∀ cands : List ℚ, cands ≠ [] →
      (∀ v : ℚ, v ∈ filter_outliers_iqr cands ↔
        v ∈ cands ∧ iqrLower cands ≤ v ∧ v ≤ iqrUpper cands)
      ∧ aggregateCandidates defaultAnalyzer cands = aggregateSpec cands)
    ∧ aggregateCandidates defaultAnalyzer [60, 61, 59, 60, 200] = 60
    ∧ (200 : ℚ) ∉ filter_outliers_iqr [60, 61, 59, 60, 200] := by
  have hq1 : npPercentile [(60:ℚ), 61, 59, 60, 200] 25 = 60 := by
    simp only [npPercentile, npSort]
    rw [show List.insertionSort (fun x1 x2 => x1 ≤ x2) [(60:ℚ),61,59,60,200]
        = [59,60,60,61,200] by norm_num [List.insertionSort, List.orderedInsert]]
    rw [show (25 * (([(59:ℚ),60,60,61,200].length : ℚ) - 1) / 100) = 1 by norm_num]
    rw [show ⌊(1:ℚ)⌋ = 1 by norm_num, show ⌈(1:ℚ)⌉ = 1 by norm_num]
    rw [show Int.toNat (1:ℤ) = 1 from rfl]
    rw [show List.getD [(59:ℚ),60,60,61,200] 1 0 = 60 from rfl]
    norm_num
  have hq3 : npPercentile [(60:ℚ), 61, 59, 60, 200] 75 = 61 := by
    simp only [npPercentile, npSort]
    rw [show List.insertionSort (fun x1 x2 => x1 ≤ x2) [(60:ℚ),61,59,60,200]
        = [59,60,60,61,200] by norm_num [List.insertionSort, List.orderedInsert]]
    rw [show (75 * (([(59:ℚ),60,60,61,200].length : ℚ) - 1) / 100) = 3 by norm_num]
    rw [show ⌊(3:ℚ)⌋ = 3 by norm_num, show ⌈(3:ℚ)⌉ = 3 by norm_num]
    rw [show Int.toNat (3:ℤ) = 3 from rfl]
    rw [show List.getD [(59:ℚ),60,60,61,200] 3 0 = 61 from rfl]
    norm_num
  have hlow : iqrLower [(60:ℚ), 61, 59, 60, 200] = 117/2 := by
    unfold iqrLower; rw [hq1, hq3]; norm_num
  have hup : iqrUpper [(60:ℚ), 61, 59, 60, 200] = 125/2 := by
    unfold iqrUpper; rw [hq1, hq3]; norm_num
  have hfil5 : filter_outliers_iqr [(60:ℚ), 61, 59, 60, 200] = [60, 61, 59, 60] := by
    unfold filter_outliers_iqr
    rw [if_neg (by simp), hlow, hup]
    norm_num [List.filter_cons]
  have hma : moving_average [(60:ℚ), 61, 59, 60] 3 = [60, 60] := by
    unfold moving_average
    norm_num [List.range_succ, npMean]
  refine ⟨?_, ?_, ?_⟩
  · intro cands hc
    have hfil : filter_outliers_iqr cands
        = cands.filter (fun v => decide (iqrLower cands ≤ v ∧ v ≤ iqrUpper cands)) := by
      unfold filter_outliers_iqr; rw [if_neg hc]
    constructor
    · intro v
      rw [hfil, List.mem_filter]
      simp only [decide_eq_true_eq]
    · simp only [aggregateCandidates, aggregateSpec]
      rw [hfil, if_neg hc]
      simp only [defaultAnalyzer, BPMAnalyzer.init]
  · simp only [aggregateCandidates, defaultAnalyzer, BPMAnalyzer.init]
    rw [hfil5]
    rw [if_neg (by simp : ¬([(60:ℚ), 61, 59, 60] = []))]
    rw [if_pos (by norm_num : 3 ≤ ([(60:ℚ), 61, 59, 60]).length)]
    rw [hma]
    norm_num [npMean]
  · rw [hfil5]
    norm_num

/-- **C1 witness**: the general part of C1 applied to the concrete
candidate list `[50, 50]`. -/
theorem aggregator_correct_witness :
    aggregateCandidates defaultAnalyzer [(50:ℚ), 50] = aggregateSpec [(50:ℚ), 50] :=
  (aggregator_correct.1 [(50:ℚ), 50] (by simp)).2

/-! ## Claims C5 and C6: the streaming smoothing step -/

/-- **C5.** After a stable-phase update cycle in which at least one segment
analysis was positive, the live BPM equals the 3-point-median-filtered,
EMA-folded history when the history has at least 3 entries, and the plain
median of the history when it has fewer. -/
theorem live_bpm_smoothing (st : MicState) (results : List ℚ)
    (h : ∃ r ∈ results, 0 < r) :
    (3 ≤ (micUpdate st results).history.length →
        (micUpdate st results).bpm
          = emaFold (medianFilter3 (micUpdate st results).history))
    ∧ ((micUpdate st results).history.length < 3 →
        (micUpdate st results).bpm = npMedian (micUpdate st results).history) := by
  obtain ⟨r, hr, hrpos⟩ := h
  have hne : results.filter (fun b => decide (0 < b)) ≠ [] :=
    List.ne_nil_of_mem (List.mem_filter.mpr ⟨hr, by simpa using hrpos⟩)
  simp only [micUpdate]
  rw [if_neg hne]
  constructor <;> intro hlen <;> dsimp only at hlen ⊢
  · rw [if_pos hlen]
  · rw [if_neg (by omega)]

/-- **C5 witness**: appending a third history entry triggers the median
filter + EMA smoothing path. -/
theorem live_bpm_smoothing_witness :
    (micUpdate ⟨[100, 110], 105⟩ [120]).bpm
      = emaFold (medianFilter3 (micUpdate ⟨[100, 110], 105⟩ [120]).history) :=
  (live_bpm_smoothing ⟨[100, 110], 105⟩ [120] ⟨120, by simp, by norm_num⟩).1
    (by norm_num [micUpdate, List.filter_cons])

/-- **C6.** A stable-phase update cycle in which none of the sub-window
analyses yields a positive BPM leaves the streaming state unchanged: the
history is not appended to and the previously smoothed BPM is kept. -/
theorem no_positive_results_keeps_state (st : MicState) (results : List ℚ)
    (h : ∀ r ∈ results, ¬ 0 < r) :
    micUpdate st results = st := by
  have hf : results.filter (fun b => decide (0 < b)) = [] := by
    rw [List.filter_eq_nil_iff]
    intro a ha
    simpa using h a ha
  simp only [micUpdate]
  rw [hf, if_pos rfl]
  cases st with
  | mk hist bpm =>
    simp only [MicState.mk.injEq, true_and]
    split
    · next hb => exact hb.symm
    · rfl

/-- **C6 witness**: three zero-BPM segment results leave the state intact. -/
theorem no_positive_results_keeps_state_witness :
    micUpdate ⟨[100], 100⟩ [0, 0, 0] = ⟨[100], 100⟩ :=
  no_positive_results_keeps_state ⟨[100], 100⟩ [0, 0, 0] (by simp)

/-! ## Helper lemmas for the IQR filter (C10) -/

theorem sorted_getD_mono {l : List ℚ} (hl : List.Sorted (· ≤ ·) l) {i j : ℕ}
    (hij : i ≤ j) (hj : j < l.length) : l.getD i 0 ≤ l.getD j 0 := by
  have hi : i < l.length := lt_of_le_of_lt hij hj
  rw [List.getD_eq_get _ _ hi, List.getD_eq_get _ _ hj]
  exact hl.rel_get_of_le (Fin.mk_le_mk.mpr hij)

theorem getD_mem {l : List ℚ} {i : ℕ} (h : i < l.length) : l.getD i 0 ∈ l := by
  rw [List.getD_eq_get _ _ h]
  exact List.get_mem l i h

/-- The linear interpolation of `np.percentile` lands between the order
statistics at the floor and the ceiling of the virtual index. -/
theorem npPercentile_bounds (values : List ℚ) (hv : values ≠ []) (p : ℚ)
    (hp0 : 0 ≤ p) (hp1 : p ≤ 100) :
    (npSort values).getD (⌊p * ((values.length : ℚ) - 1) / 100⌋).toNat 0
        ≤ npPercentile values p
    ∧ npPercentile values p
        ≤ (npSort values).getD (⌈p * ((values.length : ℚ) - 1) / 100⌉).toNat 0 := by
  have hlen : (npSort values).length = values.length :=
    (List.perm_insertionSort _ values).length_eq
  have hsort : List.Sorted (· ≤ ·) (npSort values) :=
    List.sorted_insertionSort _ values
  have hpos : 0 < values.length := List.length_pos.mpr hv
  have hn1 : (1:ℚ) ≤ (values.length : ℚ) := by exact_mod_cast hpos
  set idx : ℚ := p * ((values.length : ℚ) - 1) / 100 with hidx
  have hidx0 : 0 ≤ idx := by
    apply div_nonneg _ (by norm_num)
    exact mul_nonneg hp0 (by linarith)
  have hidxle : idx ≤ (values.length : ℚ) - 1 := by
    rw [hidx, div_le_iff₀ (by norm_num : (0:ℚ) < 100)]
    have := mul_le_mul_of_nonneg_right hp1 (by linarith : (0:ℚ) ≤ (values.length : ℚ) - 1)
    linarith
  have hfle : (⌊idx⌋ : ℚ) ≤ idx := Int.floor_le idx
  have hflt : idx < ⌊idx⌋ + 1 := Int.lt_floor_add_one idx
  have hfr0 : 0 ≤ idx - ⌊idx⌋ := by linarith
  have hfr1 : idx - ⌊idx⌋ ≤ 1 := by linarith
  have hlohi : (⌊idx⌋).toNat ≤ (⌈idx⌉).toNat :=
    Int.toNat_le_toNat (Int.floor_le_ceil idx)
  have hhi : (⌈idx⌉).toNat < (npSort values).length := by
    have h1 : ⌈idx⌉ ≤ (values.length : ℤ) - 1 := by
      rw [Int.ceil_le]
      push_cast
      linarith
    rw [hlen]
    omega
  have hmono : (npSort values).getD (⌊idx⌋).toNat 0 ≤ (npSort values).getD (⌈idx⌉).toNat 0 :=
    sorted_getD_mono hsort hlohi hhi
  have hcalc : npPercentile values p
      = (npSort values).getD (⌊idx⌋).toNat 0
        + (idx - ⌊idx⌋)
          * ((npSort values).getD (⌈idx⌉).toNat 0 - (npSort values).getD (⌊idx⌋).toNat 0) := by
    simp only [npPercentile]
    rw [hlen]
  constructor
  · rw [hcalc]
    nlinarith [mul_nonneg hfr0 (sub_nonneg.mpr hmono)]
  · rw [hcalc]
    nlinarith [mul_le_mul_of_nonneg_right hfr1 (sub_nonneg.mpr hmono)]

/-- For `n ≥ 3` the ceiling index of the first quartile does not exceed the
floor index of the third quartile. -/
theorem ceil_le_floor_index {n : ℕ} (hn : 3 ≤ n) :
    (⌈25 * ((n:ℚ) - 1) / 100⌉).toNat ≤ (⌊75 * ((n:ℚ) - 1) / 100⌋).toNat := by
  have hk : (2:ℚ) ≤ (n:ℚ) - 1 := by
    have : (3:ℚ) ≤ (n:ℚ) := by exact_mod_cast hn
    linarith
  have h1 : (⌈25 * ((n:ℚ) - 1) / 100⌉ : ℚ) < 25 * ((n:ℚ) - 1) / 100 + 1 :=
    Int.ceil_lt_add_one _
  have h2 : ⌈25 * ((n:ℚ) - 1) / 100⌉ ≤ ⌊75 * ((n:ℚ) - 1) / 100⌋ := by
    rw [Int.le_floor]
    linarith
  exact Int.toNat_le_toNat h2

/-- Some input value always lies within the IQR fences: the fences contain
`[Q1, Q3]`, and an order statistic between the two quartile indices exists. -/
theorem exists_within_iqr_fences (values : List ℚ) (hv : values ≠ []) :
    ∃ x ∈ values, iqrLower values ≤ x ∧ x ≤ iqrUpper values := by
  have hlen : (npSort values).length = values.length :=
    (List.perm_insertionSort _ values).length_eq
  have hsort : List.Sorted (· ≤ ·) (npSort values) :=
    List.sorted_insertionSort _ values
  have hperm : List.Perm (npSort values) values := List.perm_insertionSort _ values
  have hpos : 0 < values.length := List.length_pos.mpr hv
  by_cases h3 : 3 ≤ values.length
  · obtain ⟨-, h25hi⟩ := npPercentile_bounds values hv 25 (by norm_num) (by norm_num)
    obtain ⟨h75lo, -⟩ := npPercentile_bounds values hv 75 (by norm_num) (by norm_num)
    have hidx : (⌈25 * ((values.length : ℚ) - 1) / 100⌉).toNat
        ≤ (⌊75 * ((values.length : ℚ) - 1) / 100⌋).toNat := ceil_le_floor_index h3
    have hlo3lt : (⌊75 * ((values.length : ℚ) - 1) / 100⌋).toNat < (npSort values).length := by
      have hn1 : (1:ℚ) ≤ (values.length : ℚ) := by exact_mod_cast hpos
      have h1 : ⌊75 * ((values.length : ℚ) - 1) / 100⌋ ≤ (values.length : ℤ) - 1 := by
        rw [Int.floor_le_iff]
        push_cast
        have : 75 * ((values.length : ℚ) - 1) / 100 ≤ (values.length : ℚ) - 1 := by
          rw [div_le_iff₀ (by norm_num : (0:ℚ) < 100)]
          nlinarith
        linarith
      rw [hlen]
      omega
    have hchain2 : (npSort values).getD (⌈25 * ((values.length : ℚ) - 1) / 100⌉).toNat 0
        ≤ (npSort values).getD (⌊75 * ((values.length : ℚ) - 1) / 100⌋).toNat 0 :=
      sorted_getD_mono hsort hidx hlo3lt
    refine ⟨(npSort values).getD (⌈25 * ((values.length : ℚ) - 1) / 100⌉).toNat 0,
      hperm.mem_iff.mp (getD_mem (lt_of_le_of_lt hidx hlo3lt)), ?_, ?_⟩
    · unfold iqrLower
      linarith [h25hi, hchain2, h75lo]
    · unfold iqrUpper
      linarith [h25hi, hchain2, h75lo]
  · have h12 : values.length = 1 ∨ values.length = 2 := by omega
    rcases h12 with h1 | h2
    · obtain ⟨a, rfl⟩ := List.length_eq_one.mp h1
      have h25 : npPercentile [a] 25 = a := by
        norm_num [npPercentile, npSort, List.insertionSort, List.orderedInsert]
      have h75 : npPercentile [a] 75 = a := by
        norm_num [npPercentile, npSort, List.insertionSort, List.orderedInsert]
      refine ⟨a, by simp, ?_, ?_⟩
      · unfold iqrLower; rw [h25, h75]; linarith
      · unfold iqrUpper; rw [h25, h75]; linarith
    · obtain ⟨a, b, rfl⟩ := List.length_eq_two.mp h2
      rcases le_total a b with hab | hab
      · have hsortv : npSort [a, b] = [a, b] := by
          simp [npSort, List.insertionSort, List.orderedInsert, hab]
        have h25 : npPercentile [a, b] 25 = a + 1/4 * (b - a) := by
          simp only [npPercentile]
          rw [hsortv]
          rw [show (25 * (([a, b].length : ℚ) - 1) / 100) = 1/4 by norm_num]
          rw [show ⌊(1/4:ℚ)⌋ = 0 by rw [Int.floor_eq_iff]; norm_num,
            show ⌈(1/4:ℚ)⌉ = 1 by rw [Int.ceil_eq_iff]; norm_num]
          norm_num
        have h75 : npPercentile [a, b] 75 = a + 3/4 * (b - a) := by
          simp only [npPercentile]
          rw [hsortv]
          rw [show (75 * (([a, b].length : ℚ) - 1) / 100) = 3/4 by norm_num]
          rw [show ⌊(3/4:ℚ)⌋ = 0 by rw [Int.floor_eq_iff]; norm_num,
            show ⌈(3/4:ℚ)⌉ = 1 by rw [Int.ceil_eq_iff]; norm_num]
          norm_num
        refine ⟨a, by simp, ?_, ?_⟩
        · unfold iqrLower; rw [h25, h75]; linarith
        · unfold iqrUpper; rw [h25, h75]; linarith
      · have hsortv : npSort [a, b] = [b, a] := by
          rcases eq_or_lt_of_le hab with heq | hlt
          · simp [npSort, List.insertionSort, List.orderedInsert, heq]
          · simp [npSort, List.insertionSort, List.orderedInsert, not_le.mpr hlt,
              le_of_lt hlt]
        have h25 : npPercentile [a, b] 25 = b + 1/4 * (a - b) := by
          simp only [npPercentile]
          rw [hsortv]
          rw [show (25 * (([b, a].length : ℚ) - 1) / 100) = 1/4 by norm_num]
          rw [show ⌊(1/4:ℚ)⌋ = 0 by rw [Int.floor_eq_iff]; norm_num,
            show ⌈(1/4:ℚ)⌉ = 1 by rw [Int.ceil_eq_iff]; norm_num]
          norm_num
        have h75 : npPercentile [a, b] 75 = b + 3/4 * (a - b) := by
          simp only [npPercentile]
          rw [hsortv]
          rw [show (75 * (([b, a].length : ℚ) - 1) / 100) = 3/4 by norm_num]
          rw [show ⌊(3/4:ℚ)⌋ = 0 by rw [Int.floor_eq_iff]; norm_num,
            show ⌈(3/4:ℚ)⌉ = 1 by rw [Int.ceil_eq_iff]; norm_num]
          norm_num
        refine ⟨b, by simp, ?_, ?_⟩
        · unfold iqrLower; rw [h25, h75]; linarith
        · unfold iqrUpper; rw [h25, h75]; linarith

/-! ## Claim C10: the IQR filter never empties a non-empty list -/

/-- **C10.** The IQR outlier filter returns a non-empty list on every
non-empty input, so the median-of-unfiltered fallback branch of
`analyze_audio_data` is unreachable whenever the candidate list is
non-empty: the aggregation always takes one of the two mean branches. -/
theorem iqr_filter_nonempty :
    (∀ values : List ℚ, values ≠ [] → filter_outliers_iqr values ≠ [])
    ∧ (∀ cands : List ℚ, cands ≠ [] →
        aggregateCandidates defaultAnalyzer cands
          = if 3 ≤ (filter_outliers_iqr cands).length
            then npMean (moving_average (filter_outliers_iqr cands) 3)
            else npMean (filter_outliers_iqr cands)) := by
  have main : ∀ values : List ℚ, values ≠ [] → filter_outliers_iqr values ≠ [] := by
    intro values hv
    obtain ⟨x, hmem, hlo, hup⟩ := exists_within_iqr_fences values hv
    unfold filter_outliers_iqr
    rw [if_neg hv]
    exact List.ne_nil_of_mem
      (List.mem_filter.mpr ⟨hmem, by simpa using And.intro hlo hup⟩)
  refine ⟨main, ?_⟩
  intro cands hc
  simp only [aggregateCandidates, defaultAnalyzer, BPMAnalyzer.init]
  rw [if_neg (main cands hc)]

/-- **C10 witness**: the filter keeps something on the list `[60]`. -/
theorem iqr_filter_nonempty_witness : filter_outliers_iqr [(60:ℚ)] ≠ [] :=
  iqr_filter_nonempty.1 [(60:ℚ)] (by simp)

/-! ## NaN propagation lemmas for the float model -/

theorem FV.add_nan_left (y : FV) : FV.add FV.nan y = FV.nan := by cases y <;> rfl

theorem FV.add_nan_right (x : FV) : FV.add x FV.nan = FV.nan := by cases x <;> rfl

theorem FV.mul_nan_right (x : FV) : FV.mul x FV.nan = FV.nan := by cases x <;> rfl

theorem FV.div_nan_left (y : FV) : FV.div FV.nan y = FV.nan := by cases y <;> rfl

theorem FV.sqrt_nan : FV.sqrt FV.nan = FV.nan := rfl

theorem FV.flt_nan_right (x : FV) : FV.flt x FV.nan = false := by cases x <;> rfl

theorem FV.sum_eq_nan {l : List FV} (h : FV.nan ∈ l) : FV.sum l = FV.nan := by
  induction l with
  | nil => cases h
  | cons a t ih =>
    rcases List.mem_cons.mp h with rfl | h
    · show FV.add FV.nan (FV.sum t) = FV.nan
      exact FV.add_nan_left _
    · show FV.add a (FV.sum t) = FV.nan
      rw [ih h]
      exact FV.add_nan_right a

theorem FV.mean_eq_nan {l : List FV} (h : FV.nan ∈ l) : FV.mean l = FV.nan := by
  unfold FV.mean
  rw [FV.sum_eq_nan h]
  exact FV.div_nan_left _

theorem mem_zipWith {α β γ : Type} {f : α → β → γ} {l₁ : List α} {l₂ : List β} {c : γ}
    (h : c ∈ List.zipWith f l₁ l₂) : ∃ a ∈ l₁, ∃ b ∈ l₂, c = f a b := by
  induction l₁ generalizing l₂ with
  | nil => simp at h
  | cons a t ih =>
    cases l₂ with
    | nil => simp at h
    | cons b t₂ =>
      rcases List.mem_cons.mp h with rfl | h
      · exact ⟨a, by simp, b, by simp, rfl⟩
      · obtain ⟨a', ha, b', hb, rfl⟩ := ih h
        exact ⟨a', by simp [ha], b', by simp [hb], rfl⟩

/-! ## The detector on degenerate input -/

theorem frameStarts_lt {L : ℕ} {s : ℕ} (hs : s ∈ frameStarts defaultAnalyzer L) :
    s < L := by
  unfold frameStarts numFrames at hs
  obtain ⟨i, hi, rfl⟩ := List.mem_map.mp hs
  rw [List.mem_range] at hi
  rw [show defaultAnalyzer.frame_size = 2048 from rfl,
    show defaultAnalyzer.hop_size = 512 from rfl] at hi
  rw [show defaultAnalyzer.hop_size = 512 from rfl]
  omega

theorem energyList_nan {x : List FV} (hx : ∀ v ∈ x, v = FV.nan) :
    ∀ e ∈ energyList defaultAnalyzer x, e = FV.nan := by
  intro e he
  unfold energyList at he
  obtain ⟨s, hs, rfl⟩ := List.mem_map.mp he
  have hslt : s < x.length := frameStarts_lt hs
  have hlen : (frameAt x s defaultAnalyzer.frame_size).length ≠ 0 := by
    unfold frameAt
    rw [List.length_take, List.length_drop,
      show defaultAnalyzer.frame_size = 2048 from rfl]
    omega
  obtain ⟨v, hv⟩ : ∃ v, v ∈ frameAt x s defaultAnalyzer.frame_size :=
    List.exists_mem_of_ne_nil _ (by
      intro h0
      rw [h0] at hlen
      simp at hlen)
  have hvnan : v = FV.nan := by
    unfold frameAt at hv
    exact hx v (List.mem_of_mem_drop (List.mem_of_mem_take hv))
  have hnanmem : FV.nan ∈ (frameAt x s defaultAnalyzer.frame_size).map
      (fun v => FV.mul v v) :=
    List.mem_map.mpr ⟨v, hv, by rw [hvnan]; rfl⟩
  rw [FV.mean_eq_nan hnanmem, FV.sqrt_nan]

theorem combinedOnset_nan {x : List FV} (hx : ∀ v ∈ x, v = FV.nan) :
    ∀ c ∈ combinedOnset defaultAnalyzer x, c = FV.nan := by
  intro c hc
  unfold combinedOnset at hc
  obtain ⟨e, he, f, -, rfl⟩ := mem_zipWith hc
  have he' : e = FV.nan := energyList_nan hx e (List.mem_of_mem_take he)
  rw [he']
  show FV.add (FV.mul (FV.val (7/10)) FV.nan) _ = FV.nan
  rw [FV.mul_nan_right, FV.add_nan_left]

theorem peakIndices_nil_of_nan {combined threshold : List FV}
    (hc : ∀ c ∈ combined, c = FV.nan) :
    peakIndices combined threshold = [] := by
  unfold peakIndices
  rw [List.filter_eq_nil_iff]
  intro i hi
  have hilt : i < combined.length := by
    have h1 := List.mem_of_mem_drop hi
    rw [List.mem_range] at h1
    omega
  have hgd : combined.getD i FV.nan = FV.nan := by
    rw [List.getD_eq_get _ _ hilt]
    exact hc _ (List.get_mem _ _ _)
  simp only [hgd, FV.flt_nan_right, Bool.and_false, Bool.false_and]
  simp

theorem normalizeAudio_all_zero {audio : List ℝ} (hne : audio ≠ [])
    (hz : ∀ s ∈ audio, s = 0) :
    normalizeAudio audio = some (audio.map fun _ => FV.nan) := by
  cases audio with
  | nil => exact absurd rfl hne
  | cons y ys =>
    have hfold : ∀ (l : List ℝ), (∀ v ∈ l, v = 0) → ∀ a : ℝ, 0 ≤ a →
        l.foldl (fun acc v => max acc |v|) a = a := by
      intro l
      induction l with
      | nil => intro _ a _; rfl
      | cons v t ih =>
        intro hl a ha
        rw [List.foldl_cons, hl v (by simp), abs_zero, max_eq_left ha]
        exact ih (fun w hw => hl w (by simp [hw])) a ha
    have hy : y = 0 := hz y (by simp)
    simp only [normalizeAudio]
    rw [hy, abs_zero, hfold ys (fun w hw => hz w (by simp [hw])) 0 le_rfl, if_pos rfl]

theorem normalizeAudio_exists {audio : List ℝ} (hne : audio ≠ []) :
    ∃ x, normalizeAudio audio = some x ∧ x.length = audio.length := by
  cases audio with
  | nil => exact absurd rfl hne
  | cons y ys =>
    simp only [normalizeAudio]
    split
    · exact ⟨_, rfl, by simp⟩
    · exact ⟨_, rfl, by simp⟩

theorem combinedOnset_nil_of_short {x : List FV} (h : x.length ≤ 2048) :
    combinedOnset defaultAnalyzer x = [] := by
  have hnf : numFrames defaultAnalyzer x.length = 0 := by
    unfold numFrames
    rw [show defaultAnalyzer.frame_size = 2048 from rfl,
      show defaultAnalyzer.hop_size = 512 from rfl]
    omega
  have hen : energyList defaultAnalyzer x = [] := by
    unfold energyList frameStarts
    rw [hnf]
    rfl
  simp only [combinedOnset]
  rw [hen]
  simp

theorem analyze_of_peaks_nil {audio : List ℝ} {x : List FV} {sr : ℚ}
    (hx : normalizeAudio audio = some x)
    (hp : peakIndices (combinedOnset defaultAnalyzer x)
        (dynamicThreshold defaultAnalyzer (combinedOnset defaultAnalyzer x)) = []) :
    analyze_audio_data defaultAnalyzer audio sr = some 0 := by
  have hdet : detect_beats_improved defaultAnalyzer audio sr = some [] := by
    unfold detect_beats_improved
    simp [hx, hp, refineBeats]
  unfold analyze_audio_data
  simp [hdet]

/-! ## Claim C4: silence and too-short buffers -/

/-- **C4 counterexample.** On the *empty* buffer (an all-zero buffer of
length 0, also shorter than one frame) `analyze_audio_data` does not return
`0`: `np.max` over the empty array raises a `ValueError` (modelled as
`none`), contradicting the claim's "any length … without raising". -/
theorem analyze_raises_on_empty :
    analyze_audio_data defaultAnalyzer [] 44100 = none := rfl

/-- **C4 (amended).** For every *non-empty* all-zero buffer of any length,
and for every non-empty buffer shorter than one frame (2048 samples),
`analyze_audio_data` returns 0 without raising (the empty buffer instead
raises a `ValueError` from `np.max` on an empty array). -/
theorem analyze_degenerate_zero :
    ∀ (audio : List ℝ) (sr : ℚ), audio ≠ [] →
      ((∀ s ∈ audio, s = 0) ∨ audio.length < 2048) →
      analyze_audio_data defaultAnalyzer audio sr = some 0 := by
  intro audio sr hne h
  rcases h with hz | hshort
  · have hx := normalizeAudio_all_zero hne hz
    apply analyze_of_peaks_nil hx
    apply peakIndices_nil_of_nan
    apply combinedOnset_nan
    intro v hv
    obtain ⟨a, -, hfa⟩ := List.mem_map.mp hv
    exact hfa.symm
  · obtain ⟨x, hx, hlen⟩ := normalizeAudio_exists hne
    apply analyze_of_peaks_nil hx
    rw [combinedOnset_nil_of_short (by omega)]
    rfl

/-- **C4 witness**: the all-zero three-sample buffer analyzes to 0. -/
theorem analyze_degenerate_zero_witness :
    analyze_audio_data defaultAnalyzer [(0:ℝ), 0, 0] 44100 = some 0 :=
  analyze_degenerate_zero [(0:ℝ), 0, 0] 44100 (by simp) (Or.inl (by simp))

/-! ## Claim C9: every returned estimate is 0 or within [40, 220] -/

theorem mem_candidates_range {beats : List ℚ} {sr : ℚ} :
    ∀ c ∈ calculate_bpm_candidates beats sr, 40 ≤ c ∧ c ≤ 220 := by
  intro c hc
  unfold calculate_bpm_candidates at hc
  split at hc
  · simp at hc
  · obtain ⟨dt, -, hdt⟩ := List.mem_flatMap.mp hc
    split at hdt
    · obtain ⟨r, -, hr⟩ := List.mem_filterMap.mp hdt
      dsimp only at hr
      split at hr
      · next hcond =>
        rw [Option.some_inj] at hr
        rw [← hr]
        exact hcond
      · exact absurd hr (by simp)
    · simp at hdt

theorem npMean_range {l : List ℚ} (hne : l ≠ []) {lo hi : ℚ}
    (h : ∀ v ∈ l, lo ≤ v ∧ v ≤ hi) : lo ≤ npMean l ∧ npMean l ≤ hi := by
  have hlen : 0 < l.length := List.length_pos.mpr hne
  have hlenq : (0:ℚ) < (l.length : ℚ) := by exact_mod_cast hlen
  constructor
  · rw [npMean, le_div_iff₀ hlenq]
    have h1 := List.card_nsmul_le_sum l lo (fun x hx => (h x hx).1)
    rw [nsmul_eq_mul] at h1
    linarith
  · rw [npMean, div_le_iff₀ hlenq]
    have h1 := List.sum_le_card_nsmul l hi (fun x hx => (h x hx).2)
    rw [nsmul_eq_mul] at h1
    linarith

theorem npMedian_range {l : List ℚ} (hne : l ≠ []) {lo hi : ℚ}
    (h : ∀ v ∈ l, lo ≤ v ∧ v ≤ hi) : lo ≤ npMedian l ∧ npMedian l ≤ hi := by
  have hperm : List.Perm (npSort l) l := List.perm_insertionSort _ l
  have hlen : (npSort l).length = l.length := hperm.length_eq
  have hpos : 0 < l.length := List.length_pos.mpr hne
  have hmem : ∀ i, i < (npSort l).length →
      lo ≤ (npSort l).getD i 0 ∧ (npSort l).getD i 0 ≤ hi := by
    intro i hi
    exact h _ (hperm.mem_iff.mp (getD_mem hi))
  simp only [npMedian]
  constructor <;> split_ifs with hpar
  · exact (hmem _ (by omega)).1
  · have h1 := hmem ((npSort l).length / 2 - 1) (by omega)
    have h2 := hmem ((npSort l).length / 2) (by omega)
    linarith [h1.1, h2.1]
  · exact (hmem _ (by omega)).2
  · have h1 := hmem ((npSort l).length / 2 - 1) (by omega)
    have h2 := hmem ((npSort l).length / 2) (by omega)
    linarith [h1.2, h2.2]

theorem moving_average_range {l : List ℚ} {w : ℕ} (hw : 0 < w) {lo hi : ℚ}
    (h : ∀ v ∈ l, lo ≤ v ∧ v ≤ hi) :
    ∀ m ∈ moving_average l w, lo ≤ m ∧ m ≤ hi := by
  intro m hm
  unfold moving_average at hm
  split at hm
  · exact h m hm
  · next hlen =>
    obtain ⟨i, hi, rfl⟩ := List.mem_map.mp hm
    rw [List.mem_range] at hi
    apply npMean_range
    · intro hnil
      have hl := congrArg List.length hnil
      rw [List.length_take, List.length_drop, List.length_nil] at hl
      omega
    · intro v hv
      exact h v (List.mem_of_mem_drop (List.mem_of_mem_take hv))

theorem aggregate_range {cands : List ℚ}
    (h : ∀ c ∈ cands, 40 ≤ c ∧ c ≤ 220) :
    aggregateCandidates defaultAnalyzer cands = 0
    ∨ (40 ≤ aggregateCandidates defaultAnalyzer cands
        ∧ aggregateCandidates defaultAnalyzer cands ≤ 220) := by
  by_cases hc : cands = []
  · subst hc
    left
    rfl
  · have hfsub : ∀ v ∈ filter_outliers_iqr cands, 40 ≤ v ∧ v ≤ 220 := by
      intro v hv
      unfold filter_outliers_iqr at hv
      rw [if_neg hc] at hv
      exact h v (List.mem_of_mem_filter hv)
    right
    simp only [aggregateCandidates, defaultAnalyzer, BPMAnalyzer.init]
    by_cases h1 : filter_outliers_iqr cands = []
    · rw [if_pos h1, if_neg hc]
      exact npMedian_range hc h
    · rw [if_neg h1]
      by_cases h2 : 3 ≤ (filter_outliers_iqr cands).length
      · rw [if_pos h2]
        have hma_ne : moving_average (filter_outliers_iqr cands) 3 ≠ [] := by
          unfold moving_average
          rw [if_neg (by omega)]
          intro hnil
          have hl := congrArg List.length hnil
          rw [List.length_map, List.length_range, List.length_nil] at hl
          omega
        exact npMean_range hma_ne (moving_average_range (by norm_num) hfsub)
      · rw [if_neg h2]
        exact npMean_range h1 hfsub

/-- **C9.** Whenever `analyze_audio_data` returns a value, that value is
either the no-estimate sentinel 0 or lies within `[40, 220]`: every retained
candidate is range-checked into `[40, 220]` and the IQR filter, median
fallback, moving average and mean all preserve that interval. -/
theorem analyze_result_range :
    ∀ (audio : List ℝ) (sr : ℚ) (b : ℚ),
      analyze_audio_data defaultAnalyzer audio sr = some b →
      b = 0 ∨ (40 ≤ b ∧ b ≤ 220) := by
  intro audio sr b h
  unfold analyze_audio_data at h
  split at h
  · exact absurd h (by simp)
  · split at h
    · left
      exact (Option.some_inj.mp h).symm
    · have hb : b = aggregateCandidates defaultAnalyzer
          (calculate_bpm_candidates _ sr) := (Option.some_inj.mp h).symm
      rw [hb]
      exact aggregate_range mem_candidates_range

/-- **C9 witness**: the single-sample silent buffer returns the sentinel 0,
which satisfies the range disjunction. -/
theorem analyze_result_range_witness :
    (0:ℚ) = 0 ∨ (40 ≤ (0:ℚ) ∧ (0:ℚ) ≤ 220) :=
  analyze_result_range [(0:ℝ)] 44100 0
    (analyze_of_peaks_nil (normalizeAudio_all_zero (by simp) (by simp))
      (peakIndices_nil_of_nan (combinedOnset_nan (by simp))))

end BPMDetector
